import Mathlib

/-!
Verification of the Dynamic-Pricing-DQN training core.

The definitions below are a shallow embedding of the notebook's code:
numpy float arrays become lists of rationals (float arithmetic modelled
exactly over ℚ; the baseline demand model, which uses `np.sqrt`, is
embedded over ℝ), the replay buffer's Python list becomes a Lean list of
optional slots (`push` transiently appends `None` before overwriting it),
and the random draws consumed by `random.random`, `random.randrange` and
`random.sample` are passed in explicitly as arguments.
-/

namespace DQN

/-- Hyperparameter `GAMMA = 1.00` from the DQN cell. -/
def GAMMA : ℚ := 1

/-- Hyperparameter `TARGET_UPDATE = 20`. -/
def TARGET_UPDATE : ℕ := 20

/-- Hyperparameter `BATCH_SIZE = 512`. -/
def BATCH_SIZE : ℕ := 512

/-- Horizon `T = 10` (the DQN cell's redefinition, used by the environment). -/
def T : ℕ := 10

/-- `price_grid = np.linspace(80, 120, 10)`: ten evenly spaced prices from 80
to 120 inclusive, so entry `i` is `80 + 40·i/9`. -/
def price_grid : List ℚ := (List.range 10).map (fun i => 80 + 40 * i / 9)

/-! ### Baseline market model (the earlier environment-simulator cell)

These are the notebook's `plus`, `minus`, `shock`, `q_t` and `profit_t`
functions.  They use `np.sqrt`, so they are embedded over the reals. -/

open Classical in
/-- `plus(x) = 0 if x < 0 else x`. -/
noncomputable def plus (x : ℝ) : ℝ := if x < 0 then 0 else x

open Classical in
/-- `minus(x) = 0 if x > 0 else -x`. -/
noncomputable def minus (x : ℝ) : ℝ := if x > 0 then 0 else -x

/-- `shock(x) = np.sqrt(x)`. -/
noncomputable def shock (x : ℝ) : ℝ := Real.sqrt x

/-- Demand `q_t(p_t, p_t_1, q_0, k, a, b)` from the baseline simulator cell. -/
noncomputable def q_t (p_t p_t_1 q_0 k a b : ℝ) : ℝ :=
  plus (q_0 - k * p_t - a * shock (plus (p_t - p_t_1)) + b * shock (minus (p_t - p_t_1)))

/-- Profit `profit_t(p_t, p_t_1, q_0, k, a, b, unit_cost)` from the baseline
simulator cell: demand times margin. -/
noncomputable def profit_t (p_t p_t_1 q_0 k a b unit_cost : ℝ) : ℝ :=
  q_t p_t p_t_1 q_0 k a b * (p_t - unit_cost)

/-! ### RL environment (the DQN cell) -/

/-- `np.diff`: successive differences `l[i+1] - l[i]`. -/
def np_diff (l : List ℚ) : List ℚ := List.zipWith (fun a b => b - a) l l.tail

/-- The DQN cell's `profit_t_response(price, prev_prices)`:
`price - 0.1 * np.sum(np.abs(np.diff(prev_prices)))`.  (This redefinition
shadows the baseline partial binding of the same name.) -/
def profit_t_response (price : ℚ) (prev_prices : List ℚ) : ℚ :=
  price - 0.1 * ((np_diff prev_prices).map (fun x => |x|)).sum

/-- `env_initial_state() = np.repeat(0, 2*T)`: an **int64** array, so every
state threaded through the episode loop (`np.zeros_like` inherits the
dtype) is an integer vector. -/
def env_initial_state : List ℤ := List.replicate (2 * T) 0

/-- Numpy slice assignment `a[i : i + vals.length] = vals` (the notebook only
uses it with the slice inside bounds and of matching length). -/
def assign_slice {α : Type} (l : List α) (i : ℕ) (vals : List α) : List α :=
  l.take i ++ vals ++ l.drop (i + vals.length)

/-- The cast numpy applies when a float value is stored into an int64
array slot: truncation toward zero. -/
def np_int64_cast (x : ℚ) : ℤ := if 0 ≤ x then ⌊x⌋ else -⌊-x⌋

/-- `env_step(t, state, action)`: build `next_state` from
`np.zeros_like(state)` — an int64 array, like the initial state — by
setting index 0 to `price_grid[action]` (truncated by the int64 store),
copying `state[0:T-1]` into `[1:T)`, and setting the one-hot bit `T + t`;
the reward is `profit_t_response(next_state[0], next_state[1:T])`, computed
on the exact values the integer slots hold. -/
def env_step (t : ℕ) (state : List ℤ) (action : ℕ) : List ℤ × ℚ :=
  let ns0 := List.replicate state.length (0 : ℤ)
  let ns1 := ns0.set 0 (np_int64_cast (price_grid.getD action 0))
  let ns2 := assign_slice ns1 1 (state.take (T - 1))
  let ns3 := ns2.set (T + t) 1
  (ns3, profit_t_response ((ns3.getD 0 0 : ℤ) : ℚ)
    (((ns3.drop 1).take (T - 1)).map (fun (z : ℤ) => (z : ℚ))))

/-! ### Replay memory

`ReplayMemory` stores a Python list and a cursor.  `push` first appends
`None` when under capacity and then overwrites the slot at the cursor, so
the slots are modelled as `Option α` exactly as in the Python code. -/

/-- The state of `ReplayMemory`: `capacity`, the backing list `memory`
(slots may transiently be `None`), and the write cursor `position`. -/
structure ReplayMemory (α : Type) where
  capacity : ℕ
  memory : List (Option α)
  position : ℕ

/-- `ReplayMemory(capacity)`: empty list, cursor 0. -/
def ReplayMemory.init (α : Type) (capacity : ℕ) : ReplayMemory α :=
  ⟨capacity, [], 0⟩

/-- `push`: append a `None` slot while under capacity, write the transition
at `position`, advance the cursor modulo capacity. -/
def ReplayMemory.push {α : Type} (m : ReplayMemory α) (x : α) : ReplayMemory α :=
  let mem := if m.memory.length < m.capacity then m.memory ++ [none] else m.memory
  ⟨m.capacity, mem.set m.position (some x), (m.position + 1) % m.capacity⟩

/-- `__len__`: length of the backing list. -/
def ReplayMemory.size {α : Type} (m : ReplayMemory α) : ℕ := m.memory.length

/-- Push a whole list of transitions in order. -/
def ReplayMemory.pushAll {α : Type} (m : ReplayMemory α) (xs : List α) : ReplayMemory α :=
  xs.foldl ReplayMemory.push m

/-! ### `random.sample`

`ReplayMemory.sample` calls `random.sample(self.memory, batch_size)`, which
raises `ValueError` when the requested size exceeds the population and
otherwise returns that many elements chosen without replacement.  The
selection is modelled by CPython's pool-based partial Fisher–Yates: the
`i`-th random draw (an arbitrary natural, reduced modulo the number of
not-yet-consumed slots, mirroring `randbelow(n - i)`) picks a slot, which is
then overwritten by the last active slot.  CPython's alternative set-based
rejection branch realises the same contract (distinct slots, length `k`). -/

/-- Errors the training step can raise. -/
inductive TrainError : Type where
  | insufficientData : TrainError
  | emptyStack : TrainError
deriving DecidableEq, Repr

/-- One pool-based selection round per requested element: draw `js.head`,
take that slot, replace it by the last active slot, recurse with one fewer
active slot. -/
def sample_pool {α : Type} [Inhabited α] (pool : List α) (active : ℕ) (js : List ℕ) :
    ℕ → List α
  | 0 => []
  | k + 1 =>
    let j := js.headD 0 % active
    pool.getD j default ::
      sample_pool (pool.set j (pool.getD (active - 1) default)) (active - 1) js.tail k

/-- `random.sample(population, k)` with the random draws `js` made explicit:
`ValueError` when `k` exceeds the population size, else `k` elements chosen
without replacement. -/
def random_sample {α : Type} [Inhabited α] (population : List α) (k : ℕ) (js : List ℕ) :
    Except TrainError (List α) :=
  if population.length < k then .error .insufficientData
  else .ok (sample_pool population population.length js k)

/-! ### Annealed epsilon-greedy policy -/

/-- The mutable state and constants of `AnnealedEpsGreedyPolicy`. -/
structure AnnealedEpsGreedyPolicy where
  eps_start : ℚ
  eps_end : ℚ
  eps_decay : ℚ
  steps_done : ℕ

/-- The constructor defaults `(eps_start=0.9, eps_end=0.05, eps_decay=400)`
with `steps_done = 0`. -/
def AnnealedEpsGreedyPolicy.default : AnnealedEpsGreedyPolicy :=
  ⟨9/10, 1/20, 400, 0⟩

/-- `eps_threshold = eps_end + (eps_start - eps_end) * math.exp(-steps_done/eps_decay)`.
The value of the exponential is passed in as `exp_term` (it lies in `(0, 1]`
for any `steps_done ≥ 0`) so that the policy model stays executable. -/
def eps_threshold (p : AnnealedEpsGreedyPolicy) (exp_term : ℚ) : ℚ :=
  p.eps_end + (p.eps_start - p.eps_end) * exp_term

/-- Scan keeping the first strict improvement: `bi`/`b` are the index and
value of the current best, `i` the index of the list head. -/
def argmax_go (i bi : ℕ) (b : ℚ) : List ℚ → ℕ
  | [] => bi
  | x :: xs => if b < x then argmax_go (i + 1) i x xs else argmax_go (i + 1) bi b xs

/-- `np.argmax`: index of the first occurrence of the maximum (0 on the
empty list, which numpy rejects). -/
def np_argmax : List ℚ → ℕ
  | [] => 0
  | x :: xs => argmax_go 1 0 x xs

/-- `select_action(q_values)` with the two random draws made explicit:
`sample` is the `random.random()` draw in `[0,1)`, `rand_idx` the
`random.randrange(len(q_values))` draw, and `exp_term` the value of
`math.exp(-steps_done/eps_decay)`.  Returns the chosen index together with
the updated policy state (the counter increments on every call). -/
def select_action (p : AnnealedEpsGreedyPolicy) (exp_term sample : ℚ) (rand_idx : ℕ)
    (q_values : List ℚ) : ℕ × AnnealedEpsGreedyPolicy :=
  let eps := eps_threshold p exp_term
  let p' : AnnealedEpsGreedyPolicy := ⟨p.eps_start, p.eps_end, p.eps_decay, p.steps_done + 1⟩
  (if sample > eps then np_argmax q_values else rand_idx, p')

/-- Run a sequence of `select_action` calls, threading the policy state;
each call's inputs are given as `(exp_term, sample, rand_idx, q_values)`. -/
def run_policy (p : AnnealedEpsGreedyPolicy) (calls : List (ℚ × ℚ × ℕ × List ℚ)) :
    AnnealedEpsGreedyPolicy :=
  calls.foldl (fun st c => (select_action st c.1 c.2.1 c.2.2.1 c.2.2.2).2) p

/-! ### Optimization step (`update_model`) -/

/-- A stored transition `(state, action, next_state, reward)`; `next_state`
is `None` exactly for the last step of an episode. -/
structure Transition where
  state : List ℚ
  action : ℕ
  next_state : Option (List ℚ)
  reward : ℚ
deriving Repr, DecidableEq, Inhabited

/-- The mask `s is not None` over the batch's next states. -/
def non_final_mask (batch : List Transition) : List Bool :=
  batch.map (fun tr => tr.next_state.isSome)

/-- The list `[s for s in batch.next_state if s is not None]`. -/
def non_final_next_states (batch : List Transition) : List (List ℚ) :=
  batch.filterMap (fun tr => tr.next_state)

/-- `torch.stack` raises on an empty tensor list. -/
def torch_stack {α : Type} (l : List α) : Except TrainError (List α) :=
  if l.isEmpty then .error .emptyStack else .ok l

/-- `tensor.max(1)[0]` on one row: the maximum entry. -/
def row_max (l : List ℚ) : ℚ := l.foldl max (l.headD 0)

/-- The masked assignment `zeros[mask] = vals`: positions where the mask is
`true` receive the next value of `vals` in order, the rest stay `0`. -/
def masked_scatter (mask : List Bool) (vals : List ℚ) : List ℚ :=
  match mask, vals with
  | [], _ => []
  | true :: m, v :: vs => v :: masked_scatter m vs
  | true :: m, [] => 0 :: masked_scatter m []
  | false :: m, vs => 0 :: masked_scatter m vs

/-- The target side of `update_model` on a sampled batch: stack the
non-final next states (raising on an empty stack), evaluate the target
network and take each row's max, scatter into zeros through the mask, and
form `reward + GAMMA * next_state_value` per sample. -/
def compute_targets (target_net : List ℚ → List ℚ) (batch : List Transition) :
    Except TrainError (List ℚ) := do
  let nfs ← torch_stack (non_final_next_states batch)
  let vals := nfs.map (fun s => row_max (target_net s))
  let next_state_values := masked_scatter (non_final_mask batch) vals
  pure (List.zipWith (fun tr v => tr.reward + GAMMA * v) batch next_state_values)

/-- The policy/target network pair, each an opaque parameter set `P`
(the approximator contract of the spec: evaluation is a deterministic
function of the parameters). -/
structure Nets (P : Type) where
  policy : P
  target : P

/-- The effect of the gradient phase of `update_model` on the two networks:
the optimizer owns only `policy_net.parameters()`, so one step applies an
(opaque) update `g` to the policy parameters and leaves the target
untouched. -/
def apply_gradient_step {P : Type} (g : P → P) (nets : Nets P) : Nets P :=
  ⟨g nets.policy, nets.target⟩

/-- `update_model(memory, policy_net, target_net, optimizer)`: return the
networks unchanged when the buffer holds fewer than `BATCH_SIZE`
transitions; otherwise sample a batch, compute the targets, and apply one
gradient step to the policy network.  `tn` evaluates the target network's
parameters on a state, `g` is the optimizer's parameter update, `js` the
random draws of `random.sample`. -/
def update_model {P : Type} (tn : P → List ℚ → List ℚ) (g : P → P)
    (memory : List Transition) (nets : Nets P) (js : List ℕ) :
    Except TrainError (Nets P) :=
  if memory.length < BATCH_SIZE then .ok nets
  else do
    let batch ← random_sample memory BATCH_SIZE js
    let _targets ← compute_targets (tn nets.target) batch
    pure (apply_gradient_step g nets)

/-- The target-synchronization step at the end of episode `e`:
`if i_episode % TARGET_UPDATE == 0: target_net.load_state_dict(policy_net.state_dict())`. -/
def target_sync {P : Type} (e : ℕ) (nets : Nets P) : Nets P :=
  if e % TARGET_UPDATE = 0 then ⟨nets.policy, nets.policy⟩ else nets

/-! ### Structure of `env_step`'s next state -/

/-- With a well-formed state (length `2T`), the constructed next state is
the truncated new price, the previous window's first `T - 1` entries, and a
one-hot block obtained by setting bit `t` in `T` zeros. -/
theorem env_step_shape (t : ℕ) (state : List ℤ) (action : ℕ)
    (hs : state.length = 2 * T) :
    (env_step t state action).1 =
      np_int64_cast (price_grid.getD action 0) ::
        (state.take (T - 1) ++ (List.replicate T (0 : ℤ)).set t 1) := by
  have h9 : (state.take (T - 1)).length = 9 := by
    rw [List.length_take, hs]; rfl
  show (((List.replicate state.length (0 : ℤ)).set 0
        (np_int64_cast (price_grid.getD action 0))).take 1
      ++ state.take (T - 1)
      ++ ((List.replicate state.length (0 : ℤ)).set 0
            (np_int64_cast (price_grid.getD action 0))).drop
          (1 + (state.take (T - 1)).length)).set (T + t) 1 = _
  rw [hs]
  have hrep : List.replicate (2 * T) (0 : ℤ) = 0 :: List.replicate 19 0 := rfl
  rw [hrep, List.set_cons_zero, h9]
  have htake : (np_int64_cast (price_grid.getD action 0) ::
      List.replicate 19 (0 : ℤ)).take 1 =
      [np_int64_cast (price_grid.getD action 0)] := rfl
  have hdrop : (np_int64_cast (price_grid.getD action 0) ::
      List.replicate 19 (0 : ℤ)).drop (1 + 9) =
      List.replicate T 0 := rfl
  rw [htake, hdrop]
  have h1 : ([np_int64_cast (price_grid.getD action 0)] ++
      (state.take (T - 1) ++ List.replicate T (0 : ℤ))).set (T + t) 1 =
      [np_int64_cast (price_grid.getD action 0)] ++
        (state.take (T - 1) ++ List.replicate T (0 : ℤ)).set (T + t - 1) 1 := by
    refine List.set_append_right _ _ ?_
    simp [T]
    omega
  have h2 : (state.take (T - 1) ++ List.replicate T (0 : ℤ)).set (T + t - 1) 1 =
      state.take (T - 1) ++
        (List.replicate T (0 : ℤ)).set (T + t - 1 - (state.take (T - 1)).length) 1 := by
    refine List.set_append_right _ _ ?_
    rw [h9]; simp [T]
  have h3 : T + t - 1 - (state.take (T - 1)).length = t := by
    rw [h9]; simp [T]
  rw [List.append_assoc, h1, h2, h3]
  rfl

/-- The one-hot block: entry `j` of `T` zeros with bit `t` set is `1` at
`j = t` and `0` elsewhere. -/
theorem onehot_getD (t j : ℕ) (hj : j < T) :
    ((List.replicate T (0 : ℤ)).set t 1).getD j 0 = if j = t then 1 else 0 := by
  have hlen : j < ((List.replicate T (0 : ℤ)).set t 1).length := by
    simpa using hj
  rw [List.getD_eq_getElem _ _ hlen]
  by_cases h : j = t
  · subst h
    simp [List.getElem_set_self]
  · rw [List.getElem_set_ne (fun hh => h hh.symm), List.getElem_replicate, if_neg h]

/-- **C4 (amended).** For every time step `t ∈ [0, T)`, well-formed state
`s` (length `2T`, an int64 vector) and action `a`, the next state returned
by `env_step` is the previous state's price window shifted right by one
with the **int64-truncated** chosen grid price (`np_int64_cast` of
`price_grid[action]`, truncation toward zero performed by the store into
the integer array) at index 0, the one-hot bit at index `T + t` set to `1`
with every other time one-hot index `0`, and the episode-start state is
all-zero. -/
theorem env_step_next_state_spec (t : ℕ) (state : List ℤ) (action : ℕ)
    (ht : t < T) (hs : state.length = 2 * T) :
    (env_step t state action).1.length = 2 * T
      ∧ (env_step t state action).1.getD 0 0 =
          np_int64_cast (price_grid.getD action 0)
      ∧ (∀ i, 1 ≤ i → i < T →
          (env_step t state action).1.getD i 0 = state.getD (i - 1) 0)
      ∧ (env_step t state action).1.getD (T + t) 0 = 1
      ∧ (∀ j, T ≤ j → j < 2 * T → j ≠ T + t →
          (env_step t state action).1.getD j 0 = 0)
      ∧ (∀ i, env_initial_state.getD i 0 = 0) := by
  rw [env_step_shape t state action hs]
  have h9 : (state.take (T - 1)).length = 9 := by
    rw [List.length_take, hs]; rfl
  refine ⟨?_, rfl, ?_, ?_, ?_, ?_⟩
  · simp only [List.length_cons, List.length_append, List.length_set,
      List.length_replicate, h9]
    simp [T]
  · intro i h1 hiT
    obtain ⟨k, rfl⟩ : ∃ k, i = k + 1 := ⟨i - 1, by omega⟩
    rw [List.getD_cons_succ]
    have hk : k < (state.take (T - 1)).length := by rw [h9]; simp [T] at hiT; omega
    have hks : k < state.length := by rw [hs]; simp [T] at hiT ⊢; omega
    rw [List.getD_append _ _ _ _ hk, List.getD_eq_getElem _ _ hk, List.getElem_take]
    show _ = state.getD (k + 1 - 1) 0
    simp only [Nat.add_sub_cancel]
    rw [List.getD_eq_getElem _ _ hks]
  · have hTt : T + t = (9 + t) + 1 := by simp [T]; omega
    rw [hTt, List.getD_cons_succ, List.getD_append_right _ _ _ _ (by rw [h9]; omega)]
    have : 9 + t - (state.take (T - 1)).length = t := by rw [h9]; omega
    rw [this, onehot_getD t t ht, if_pos rfl]
  · intro j hjT hj2T hjne
    obtain ⟨k, rfl⟩ : ∃ k, j = k + 1 := ⟨j - 1, by simp [T] at hjT; omega⟩
    rw [List.getD_cons_succ, List.getD_append_right _ _ _ _ (by rw [h9]; simp [T] at hjT; omega)]
    have hk : k - (state.take (T - 1)).length = k - 9 := by rw [h9]
    rw [hk, onehot_getD t _ (by simp [T] at hj2T ⊢; omega),
      if_neg (by simp [T] at hjT hjne ⊢; omega)]
  · intro i
    by_cases h : i < (List.replicate (2 * T) (0 : ℤ)).length
    · rw [env_initial_state, List.getD_eq_getElem _ _ h, List.getElem_replicate]
    · rw [env_initial_state, List.getD_eq_default _ _ (le_of_not_lt h)]

/-- Witness for `env_step_next_state_spec` at `t = 3`, the all-zero initial
state and action `2`. -/
theorem env_step_next_state_spec_witness :
    (3 < T ∧ env_initial_state.length = 2 * T)
      ∧ (env_step 3 env_initial_state 2).1.getD (T + 3) 0 = 1 :=
  ⟨⟨by decide, by decide⟩,
    (env_step_next_state_spec 3 env_initial_state 2 (by decide) (by decide)).2.2.2.1⟩

/-- The truncated grid price at action `2` is `88`. -/
theorem np_int64_cast_grid_two : np_int64_cast (price_grid.getD 2 0) = 88 := by
  have hg : price_grid.getD 2 0 = 800/9 := by
    norm_num [price_grid, List.range_succ]
  rw [hg, np_int64_cast, if_pos (by norm_num)]
  norm_num

/-- **C4 is false on the code.** The state array is int64 (`np.repeat(0,
2*T)` and `np.zeros_like` give integer arrays), so the store
`next_state[0] = price_grid[action]` truncates: at the initial state with
`t = 0` and action `2`, the slot holds `88`, not the chosen grid price
`price_grid[2] = 800/9 ≈ 88.89`. -/
theorem env_step_truncates_price :
    (((env_step 0 env_initial_state 2).1.getD 0 0 : ℤ) : ℚ) ≠ price_grid.getD 2 0 := by
  have hlen : env_initial_state.length = 2 * T := by decide
  rw [env_step_shape 0 env_initial_state 2 hlen, List.getD_cons_zero,
    np_int64_cast_grid_two]
  have hg : price_grid.getD 2 0 = 800/9 := by
    norm_num [price_grid, List.range_succ]
  rw [hg]
  norm_num

/-- **C1 (amended).** The reward returned by `env_step` on a well-formed
(int64) state follows the DQN cell's `profit_t_response`: it equals the
int64-truncated chosen grid price minus `0.1` times the sum of the
absolute successive differences of the previous state's first `T - 1`
window entries (the slice copied into `next_state[1:T]`); no demand term
appears. -/
theorem env_step_reward_eq (t : ℕ) (state : List ℤ) (action : ℕ)
    (hs : state.length = 2 * T) :
    (env_step t state action).2 =
      (np_int64_cast (price_grid.getD action 0) : ℚ) -
        0.1 * ((np_diff ((state.take (T - 1)).map (fun (z : ℤ) => (z : ℚ)))).map
          (fun x => |x|)).sum := by
  have h9 : (state.take (T - 1)).length = 9 := by
    rw [List.length_take, hs]; rfl
  have h2 : (env_step t state action).2 =
      profit_t_response (((env_step t state action).1.getD 0 0 : ℤ) : ℚ)
        ((((env_step t state action).1.drop 1).take (T - 1)).map
          (fun (z : ℤ) => (z : ℚ))) := rfl
  rw [h2, env_step_shape t state action hs, List.getD_cons_zero]
  have hdrop : (np_int64_cast (price_grid.getD action 0) ::
      (state.take (T - 1) ++ (List.replicate T (0 : ℤ)).set t 1)).drop 1 =
      state.take (T - 1) ++ (List.replicate T (0 : ℤ)).set t 1 := rfl
  rw [hdrop, List.take_append_of_le_length (by rw [h9]; decide), List.take_take]
  have hmin : min (T - 1) (T - 1) = T - 1 := by simp
  rw [hmin, profit_t_response]

/-- Witness for `env_step_reward_eq` at `t = 0`, the all-`80` state and
action `0`. -/
theorem env_step_reward_eq_witness :
    (List.replicate 20 (80 : ℤ)).length = 2 * T
      ∧ (env_step 0 (List.replicate 20 (80 : ℤ)) 0).2 =
          (np_int64_cast (price_grid.getD 0 0) : ℚ) -
            0.1 * ((np_diff (((List.replicate 20 (80 : ℤ)).take (T - 1)).map
              (fun (z : ℤ) => (z : ℚ)))).map (fun x => |x|)).sum :=
  ⟨by simp [T], env_step_reward_eq 0 (List.replicate 20 (80 : ℤ)) 0 (by simp [T])⟩

/-- The reward of `env_step` at the all-`80` state with action `0` (price
`80` — integral, so the int64 store is exact — and previous price `80`)
is `80`. -/
theorem env_step_reward_all80 :
    (env_step 0 (List.replicate 20 (80 : ℤ)) 0).2 = 80 := by
  rw [env_step_reward_eq 0 (List.replicate 20 (80 : ℤ)) 0 (by simp [T])]
  have hgrid : price_grid.getD 0 0 = 80 := by
    norm_num [price_grid, List.range_succ]
  have hcast : np_int64_cast 80 = 80 := by
    rw [np_int64_cast, if_pos (by norm_num)]
    norm_num
  have htake : (List.replicate 20 (80 : ℤ)).take (T - 1) = List.replicate 9 80 := by
    rw [List.take_replicate]; rfl
  have hmap : (List.replicate 9 (80 : ℤ)).map (fun (z : ℤ) => (z : ℚ)) =
      List.replicate 9 (80 : ℚ) := by
    rw [List.map_replicate]
    norm_num
  have hdiff : np_diff (List.replicate 9 (80 : ℚ)) = List.replicate 8 0 := by
    show List.zipWith _ (List.replicate 9 (80 : ℚ)) (List.replicate 9 (80 : ℚ)).tail = _
    norm_num [List.replicate_succ]
  rw [hgrid, hcast, htake, hmap, hdiff]
  norm_num [List.replicate_succ]

/-- The baseline demand-model profit at price `80` and previous price `80`
(the market parameters of the notebook) is `3400 · (80 - 100) = -68000`. -/
theorem profit_t_at_80 : profit_t 80 80 5000 20 300 100 100 = -68000 := by
  have e1 : plus ((80 : ℝ) - 80) = 0 := by unfold plus; norm_num
  have e2 : minus ((80 : ℝ) - 80) = 0 := by unfold minus; norm_num
  unfold profit_t q_t
  rw [e1, e2]
  unfold shock
  rw [Real.sqrt_zero]
  have e3 : plus (5000 - 20 * (80 : ℝ) - 300 * 0 + 100 * 0) = 3400 := by
    unfold plus; norm_num
  rw [e3]; norm_num

/-- **C1 is false on the code.** At the all-`80` state with `t = 0` and
action `0` (chosen price `80 = price_grid[0]`, previous price
`state[0] = 80`, so both square-root shock terms vanish), `env_step`
returns reward `80`, while the claimed formula
`demand · (price - unit_cost)` with
`demand = max(0, q0 - k·price - a_q·√(max(0, Δ)) + b_q·√(max(0, -Δ)))`
gives `3400 · (80 - 100) = -68000`. -/
theorem env_step_reward_ne_demand_profit :
    ¬ (((env_step 0 (List.replicate 20 (80 : ℤ)) 0).2 : ℝ) =
        profit_t ((price_grid.getD 0 0 : ℚ) : ℝ)
          (((List.replicate 20 (80 : ℤ)).getD 0 0 : ℤ) : ℝ) 5000 20 300 100 100) := by
  intro h
  have hgrid : (price_grid.getD 0 0 : ℚ) = 80 := by
    norm_num [price_grid, List.range_succ]
  have hstate : ((List.replicate 20 (80 : ℤ)).getD 0 0 : ℤ) = 80 := rfl
  rw [env_step_reward_all80, hgrid, hstate] at h
  rw [show (((80 : ℚ) : ℝ)) = (80 : ℝ) by norm_num,
    show (((80 : ℤ) : ℝ)) = (80 : ℝ) by norm_num] at h
  rw [profit_t_at_80] at h
  norm_num at h

/-! ### Ring-buffer semantics of `ReplayMemory` -/

/-- Overwriting slot `p` of a full ring and advancing the cursor: viewed
from the cursor (via `rotate`), the oldest element is dropped and the new
one appended. -/
theorem rotate_set_succ {β : Type} (l : List β) (p : ℕ) (v : β) (hp : p < l.length) :
    (l.set p v).rotate ((p + 1) % l.length) = (l.rotate p).drop 1 ++ [v] := by
  have hrot : l.rotate p = l.drop p ++ l.take p :=
    List.rotate_eq_drop_append_take (le_of_lt hp)
  have hdlen : 1 ≤ (l.drop p).length := by rw [List.length_drop]; omega
  have hrhs : (l.rotate p).drop 1 ++ [v] = (l.drop (p + 1) ++ l.take p) ++ [v] := by
    rw [hrot, List.drop_append_of_le_length hdlen, List.drop_drop, Nat.add_comm p 1]
  rcases Nat.lt_or_ge (p + 1) l.length with hlt | hge
  · have hmod : (p + 1) % l.length = p + 1 := Nat.mod_eq_of_lt hlt
    have hlen' : p + 1 ≤ (l.set p v).length := by rw [List.length_set]; omega
    rw [hmod, List.rotate_eq_drop_append_take hlen', hrhs]
    rw [List.drop_set_of_lt _ _ (Nat.lt_succ_self p)]
    have htk : (l.set p v).take (p + 1) = l.take p ++ [v] := by
      rw [List.set_eq_take_cons_drop v hp, List.take_append_eq_append_take,
        List.take_take, List.length_take]
      have h1 : min (p + 1) p = p := by omega
      have h2 : p + 1 - min p l.length = 1 := by omega
      rw [h1, h2]
      rfl
    rw [htk, List.append_assoc]
  · have heq : p + 1 = l.length := by omega
    have hmod : (p + 1) % l.length = 0 := by rw [heq, Nat.mod_self]
    have hdropnil : l.drop (p + 1) = [] := by
      apply List.drop_eq_nil_of_le; omega
    rw [hmod, List.rotate_zero, hrhs, hdropnil, List.nil_append,
      List.set_eq_take_cons_drop v hp, hdropnil]

/-- The reachable-state invariant of `ReplayMemory` after pushing `xs` into
a fresh buffer of capacity `C ≥ 1`: the backing list holds
`min |xs| C` slots, the cursor is `|xs| mod C`, and rotating the backing
list to the cursor yields exactly the most recent `C` pushes (all slots
filled, oldest first). -/
theorem pushAll_invariant {α : Type} (C : ℕ) (hC : 1 ≤ C) (xs : List α) :
    ((ReplayMemory.init α C).pushAll xs).capacity = C
      ∧ ((ReplayMemory.init α C).pushAll xs).memory.length = min xs.length C
      ∧ ((ReplayMemory.init α C).pushAll xs).position = xs.length % C
      ∧ ((ReplayMemory.init α C).pushAll xs).memory.rotate (xs.length % C)
          = (xs.drop (xs.length - C)).map some := by
  induction xs using List.reverseRecOn with
  | nil =>
    refine ⟨rfl, by simp [ReplayMemory.pushAll, ReplayMemory.init], ?_, ?_⟩
    · simp [ReplayMemory.pushAll, ReplayMemory.init, Nat.zero_mod]
    · simp [ReplayMemory.pushAll, ReplayMemory.init]
  | append_singleton ys x ih =>
    obtain ⟨ihc, ihlen, ihpos, ihrot⟩ := ih
    have hstep : (ReplayMemory.init α C).pushAll (ys ++ [x]) =
        ((ReplayMemory.init α C).pushAll ys).push x := by
      unfold ReplayMemory.pushAll
      rw [List.foldl_append]
      rfl
    set m := (ReplayMemory.init α C).pushAll ys with hm
    have hlen2 : (ys ++ [x]).length = ys.length + 1 := by simp
    rcases Nat.lt_or_ge ys.length C with hlt | hge
    · -- still filling: the slot appended as `None` is immediately written
      have hmlen : m.memory.length = ys.length := by rw [ihlen]; omega
      have hpos : m.position = ys.length := by rw [ihpos, Nat.mod_eq_of_lt hlt]
      have hfull : m.memory.length < m.capacity := by rw [hmlen, ihc]; exact hlt
      have hmem' : (m.push x).memory = m.memory ++ [some x] := by
        have hle : m.memory.length ≤ m.position := by rw [hpos, hmlen]
        have hsub : m.position - m.memory.length = 0 := by rw [hpos, hmlen]; omega
        simp only [ReplayMemory.push, if_pos hfull]
        rw [List.set_append_right _ _ hle, hsub]
        rfl
      have hmemeq : m.memory = ys.map some := by
        have h1 := ihrot
        rw [Nat.mod_eq_of_lt hlt, Nat.sub_eq_zero_of_le (le_of_lt hlt),
          List.drop_zero] at h1
        rw [← h1, ← hmlen, List.rotate_length]
      refine ⟨by rw [hstep]; exact ihc, ?_, ?_, ?_⟩
      · rw [hstep, hmem', List.length_append, hmlen, hlen2]
        simp; omega
      · rw [hstep]
        show (m.position + 1) % m.capacity = _
        rw [hpos, ihc, hlen2]
      · rw [hstep, hmem', hmemeq]
        have hsx : List.map some ys ++ [some x] = (ys ++ [x]).map some := by
          rw [List.map_append]
          rfl
        rw [hsx, hlen2]
        rcases Nat.lt_or_ge (ys.length + 1) C with h1 | h1
        · rw [Nat.mod_eq_of_lt h1, Nat.sub_eq_zero_of_le (le_of_lt h1), List.drop_zero]
          have hl3 : ys.length + 1 = ((ys ++ [x]).map some).length := by simp
          rw [hl3, List.rotate_length]
        · have heq : ys.length + 1 = C := by omega
          rw [heq, Nat.mod_self, List.rotate_zero, Nat.sub_self, List.drop_zero]
    · -- full: overwrite the oldest slot
      have hmlen : m.memory.length = C := by rw [ihlen]; omega
      have hnotlt : ¬ m.memory.length < m.capacity := by rw [hmlen, ihc]; omega
      have hposlt : m.position < C := by rw [ihpos]; exact Nat.mod_lt _ (by omega)
      have hmem' : (m.push x).memory = m.memory.set m.position (some x) := by
        simp only [ReplayMemory.push, if_neg hnotlt]
      refine ⟨by rw [hstep]; exact ihc, ?_, ?_, ?_⟩
      · rw [hstep, hmem', List.length_set, hmlen, hlen2]
        simp; omega
      · rw [hstep]
        show (m.position + 1) % m.capacity = _
        rw [ihpos, ihc, hlen2, Nat.mod_add_mod]
      · rw [hstep, hmem', ihpos, hlen2, ← Nat.mod_add_mod]
        have hrot := rotate_set_succ m.memory m.position (some x) (by omega)
        rw [hmlen, ihpos] at hrot
        rw [hrot, ihrot]
        have hdrop1 : ((ys.drop (ys.length - C)).map some).drop 1 =
            (ys.drop (ys.length - C + 1)).map some := by
          rw [← List.map_drop, List.drop_drop, Nat.add_comm]
        rw [hdrop1]
        have harith : ys.length + 1 - C = ys.length - C + 1 := by omega
        rw [harith, List.drop_append_of_le_length (by omega), List.map_append]
        rfl

/-- **C3.** For every capacity `C ≥ 1` and every `k ≥ 0`, after pushing
`C + k` transitions into a fresh capacity-`C` buffer, `size()` equals
`min (C + k) C` and the buffer's contents are exactly the most recent `C`
pushed transitions (as filled slots, up to ring rotation): once full each
push overwrites the oldest stored slot, push always succeeds (it is a total
function), and the size never exceeds the capacity. -/
theorem replay_ring_semantics {α : Type} (C k : ℕ) (hC : 1 ≤ C) (xs : List α)
    (hlen : xs.length = C + k) :
    ((ReplayMemory.init α C).pushAll xs).size = min (C + k) C
      ∧ ((ReplayMemory.init α C).pushAll xs).memory.Perm ((xs.drop k).map some)
      ∧ (∀ ys : List α, ((ReplayMemory.init α C).pushAll ys).size ≤ C) := by
  obtain ⟨hc, hl, hp, hr⟩ := pushAll_invariant C hC xs
  refine ⟨?_, ?_, ?_⟩
  · rw [ReplayMemory.size, hl, hlen]
  · have h2 : ((ReplayMemory.init α C).pushAll xs).memory.Perm
        (((ReplayMemory.init α C).pushAll xs).memory.rotate (xs.length % C)) :=
      (List.rotate_perm _ _).symm
    rw [hr] at h2
    have hk : xs.length - C = k := by omega
    rw [hk] at h2
    exact h2
  · intro ys
    obtain ⟨_, hl2, _, _⟩ := pushAll_invariant C hC ys
    rw [ReplayMemory.size, hl2]
    omega

/-- Witness for `replay_ring_semantics`: pushing 5 tagged transitions into a
capacity-3 buffer leaves size 3 and exactly the last 3 pushes stored. -/
theorem replay_ring_semantics_witness :
    (1 ≤ 3 ∧ ([1, 2, 3, 4, 5] : List ℕ).length = 3 + 2)
      ∧ ((ReplayMemory.init ℕ 3).pushAll [1, 2, 3, 4, 5]).size = min (3 + 2) 3 :=
  ⟨⟨by decide, by decide⟩,
    (replay_ring_semantics 3 2 (by decide) [1, 2, 3, 4, 5] (by decide)).1⟩

/-! ### `np.argmax` and the epsilon-greedy branch -/

/-- The scan `argmax_go` either keeps the incumbent (when nothing beats it)
or returns the position of the first maximum of the remaining list, which
strictly beats the incumbent and everything before it. -/
theorem argmax_go_cases (xs : List ℚ) : ∀ i bi b,
    (argmax_go i bi b xs = bi ∧ ∀ y ∈ xs, y ≤ b)
      ∨ ∃ m, m < xs.length ∧ argmax_go i bi b xs = i + m ∧ b < xs.getD m 0
          ∧ (∀ y ∈ xs, y ≤ xs.getD m 0)
          ∧ (∀ l, l < m → xs.getD l 0 < xs.getD m 0) := by
  induction xs with
  | nil => intro i bi b; exact Or.inl ⟨rfl, by simp⟩
  | cons x xs ih =>
    intro i bi b
    by_cases hbx : b < x
    · rcases ih (i + 1) i x with ⟨heq, hall⟩ | ⟨m, hm, heq, hlt, hall, hfirst⟩
      · refine Or.inr ⟨0, by simp, ?_, ?_, ?_, ?_⟩
        · show argmax_go i bi b (x :: xs) = i + 0
          rw [argmax_go, if_pos hbx, heq, Nat.add_zero]
        · simpa using hbx
        · intro y hy
          rcases List.mem_cons.mp hy with h | h
          · simp [h]
          · simpa using hall y h
        · intro l hl; omega
      · refine Or.inr ⟨m + 1, by simpa using hm, ?_, ?_, ?_, ?_⟩
        · show argmax_go i bi b (x :: xs) = i + (m + 1)
          rw [argmax_go, if_pos hbx, heq]; omega
        · rw [List.getD_cons_succ]; exact lt_trans hbx hlt
        · intro y hy
          rw [List.getD_cons_succ]
          rcases List.mem_cons.mp hy with h | h
          · rw [h]; exact le_of_lt hlt
          · exact hall y h
        · intro l hl
          rw [List.getD_cons_succ]
          rcases Nat.eq_zero_or_eq_succ_pred l with h0 | hsucc
          · rw [h0, List.getD_cons_zero]; exact hlt
          · rw [hsucc, List.getD_cons_succ]
            exact hfirst (l - 1) (by omega)
    · rcases ih (i + 1) bi b with ⟨heq, hall⟩ | ⟨m, hm, heq, hlt, hall, hfirst⟩
      · refine Or.inl ⟨?_, ?_⟩
        · rw [argmax_go, if_neg hbx, heq]
        · intro y hy
          rcases List.mem_cons.mp hy with h | h
          · rw [h]; exact le_of_not_lt hbx
          · exact hall y h
      · refine Or.inr ⟨m + 1, by simpa using hm, ?_, ?_, ?_, ?_⟩
        · rw [argmax_go, if_neg hbx, heq]; omega
        · rw [List.getD_cons_succ]; exact hlt
        · intro y hy
          rw [List.getD_cons_succ]
          rcases List.mem_cons.mp hy with h | h
          · rw [h]; exact le_trans (le_of_not_lt hbx) (le_of_lt hlt)
          · exact hall y h
        · intro l hl
          rw [List.getD_cons_succ]
          rcases Nat.eq_zero_or_eq_succ_pred l with h0 | hsucc
          · rw [h0, List.getD_cons_zero]
            exact lt_of_le_of_lt (le_of_not_lt hbx) hlt
          · rw [hsucc, List.getD_cons_succ]
            exact hfirst (l - 1) (by omega)

/-- Entries of a list at in-range positions belong to the list. -/
theorem getD_mem_of_lt (l : List ℚ) (n : ℕ) (h : n < l.length) : l.getD n 0 ∈ l := by
  rw [List.getD_eq_getElem _ _ h]
  exact List.getElem_mem _

/-- `np.argmax` on a nonempty list returns an in-range index holding a
maximal value, and every strictly earlier entry is strictly smaller (the
"first maximum" tie-breaking convention). -/
theorem np_argmax_spec (q : List ℚ) (hq : q ≠ []) :
    np_argmax q < q.length
      ∧ (∀ j, j < q.length → q.getD j 0 ≤ q.getD (np_argmax q) 0)
      ∧ (∀ j, j < np_argmax q → q.getD j 0 < q.getD (np_argmax q) 0) := by
  match q with
  | [] => exact absurd rfl hq
  | x :: xs =>
    have hgo : np_argmax (x :: xs) = argmax_go 1 0 x xs := rfl
    rcases argmax_go_cases xs 1 0 x with ⟨heq, hall⟩ | ⟨m, hm, heq, hlt, hall, hfirst⟩
    · rw [hgo, heq]
      refine ⟨by simp, ?_, ?_⟩
      · intro j hj
        rw [List.getD_cons_zero]
        rcases Nat.eq_zero_or_eq_succ_pred j with h0 | hsucc
        · rw [h0, List.getD_cons_zero]
        · rw [hsucc, List.getD_cons_succ]
          have hjm : j - 1 < xs.length := by simp at hj; omega
          exact hall _ (getD_mem_of_lt xs (j - 1) hjm)
      · intro j hj
        exact absurd hj (by omega)
    · rw [hgo, heq]
      have hsucc1 : (1 + m : ℕ) = m + 1 := by omega
      refine ⟨by simp; omega, ?_, ?_⟩
      · intro j hj
        rw [hsucc1, List.getD_cons_succ]
        rcases Nat.eq_zero_or_eq_succ_pred j with h0 | hs
        · rw [h0, List.getD_cons_zero]; exact le_of_lt hlt
        · rw [hs, List.getD_cons_succ]
          have hjm : j - 1 < xs.length := by simp at hj; omega
          exact hall _ (getD_mem_of_lt xs (j - 1) hjm)
      · intro j hj
        rw [hsucc1, List.getD_cons_succ]
        rcases Nat.eq_zero_or_eq_succ_pred j with h0 | hs
        · rw [h0, List.getD_cons_zero]; exact hlt
        · rw [hs, List.getD_cons_succ]
          exact hfirst (j - 1) (by omega)

/-- **C7.** On every call, `select_action` compares the uniform draw with
`eps_threshold = eps_end + (eps_start - eps_end) · exp(-n/eps_decay)`
(the exponential's value is the `exp_term` argument): if the draw exceeds
the threshold it returns `np.argmax(q_values)` — an in-range index holding
a maximal value with ties broken by the lowest index — and otherwise it
returns the random index drawn from `[0, A)`; in both cases the returned
action is in `[0, A)`. -/
theorem select_action_spec (p : AnnealedEpsGreedyPolicy) (exp_term sample : ℚ)
    (rand_idx : ℕ) (q_values : List ℚ) (hq : q_values ≠ [])
    (hr : rand_idx < q_values.length) :
    (sample > eps_threshold p exp_term →
        (select_action p exp_term sample rand_idx q_values).1 = np_argmax q_values
          ∧ (∀ j, j < q_values.length →
              q_values.getD j 0 ≤ q_values.getD (np_argmax q_values) 0)
          ∧ (∀ j, j < np_argmax q_values →
              q_values.getD j 0 < q_values.getD (np_argmax q_values) 0))
      ∧ (¬ sample > eps_threshold p exp_term →
          (select_action p exp_term sample rand_idx q_values).1 = rand_idx)
      ∧ (select_action p exp_term sample rand_idx q_values).1 < q_values.length := by
  obtain ⟨hlt, hmax, hfirst⟩ := np_argmax_spec q_values hq
  by_cases hbr : sample > eps_threshold p exp_term
  · refine ⟨fun _ => ⟨?_, hmax, hfirst⟩, fun h => absurd hbr h, ?_⟩
    · show (if sample > eps_threshold p exp_term then np_argmax q_values else rand_idx) = _
      rw [if_pos hbr]
    · show (if sample > eps_threshold p exp_term then np_argmax q_values else rand_idx) <
        q_values.length
      rw [if_pos hbr]; exact hlt
  · refine ⟨fun h => absurd h hbr, fun _ => ?_, ?_⟩
    · show (if sample > eps_threshold p exp_term then np_argmax q_values else rand_idx) = _
      rw [if_neg hbr]
    · show (if sample > eps_threshold p exp_term then np_argmax q_values else rand_idx) <
        q_values.length
      rw [if_neg hbr]; exact hr

/-- Witness for `select_action_spec`: with the constructor defaults at
`steps_done = 0` (so the exponential is `1` and the threshold `0.9`), a
draw of `0.95` is greedy and returns the first maximum of `[1, 3, 3]`. -/
theorem select_action_spec_witness :
    (([1, 3, 3] : List ℚ) ≠ [] ∧ (0 : ℕ) < ([1, 3, 3] : List ℚ).length
        ∧ (95/100 : ℚ) > eps_threshold AnnealedEpsGreedyPolicy.default 1)
      ∧ (select_action AnnealedEpsGreedyPolicy.default 1 (95/100) 0 [1, 3, 3]).1 =
          np_argmax [1, 3, 3] :=
  ⟨⟨by decide, by decide, by norm_num [eps_threshold, AnnealedEpsGreedyPolicy.default]⟩,
    ((select_action_spec AnnealedEpsGreedyPolicy.default 1 (95/100) 0 [1, 3, 3]
        (by decide) (by decide)).1
      (by norm_num [eps_threshold, AnnealedEpsGreedyPolicy.default])).1⟩

/-- **C5 (amended).** With `eps_start = eps_end = 0` the threshold is `0`
for every value of the exponential, so `select_action` returns
`argmax(q_values)` for every uniform draw in the open interval `(0, 1)`;
the claim fails only at the boundary draw `0.0`, a possible value of
`random.random()`, where `sample > 0` is false and the random branch is
taken instead. -/
theorem select_action_greedy_of_pos (p : AnnealedEpsGreedyPolicy)
    (h0 : p.eps_start = 0) (h1 : p.eps_end = 0) (exp_term sample : ℚ)
    (rand_idx : ℕ) (q_values : List ℚ) (hs : 0 < sample) :
    (select_action p exp_term sample rand_idx q_values).1 = np_argmax q_values := by
  have hth : eps_threshold p exp_term = 0 := by
    rw [eps_threshold, h0, h1]; ring
  show (if sample > eps_threshold p exp_term then np_argmax q_values else rand_idx) = _
  rw [hth, if_pos hs]

/-- Witness for `select_action_greedy_of_pos` at draw `1/2` and
`q_values = [0, 1]`. -/
theorem select_action_greedy_of_pos_witness :
    ((0 : ℚ) < 1/2)
      ∧ (select_action ⟨0, 0, 400, 0⟩ 1 (1/2) 0 [0, 1]).1 = np_argmax [0, 1] :=
  ⟨by norm_num, select_action_greedy_of_pos ⟨0, 0, 400, 0⟩ rfl rfl 1 (1/2) 0 [0, 1]
    (by norm_num)⟩

/-- **C5 is false on the code at draw `0.0`.** With
`eps_start = eps_end = 0` the draw `0.0` (which lies in `[0, 1)`) fails the
strict comparison `sample > 0`, so the random branch returns the random
index `0` instead of `argmax([0, 1]) = 1`. -/
theorem select_action_zero_draw_not_greedy :
    ((0 : ℚ) ≤ 0 ∧ (0 : ℚ) < 1)
      ∧ (select_action ⟨0, 0, 400, 0⟩ 1 0 0 [0, 1]).1 ≠ np_argmax [0, 1] := by
  refine ⟨⟨le_refl 0, by norm_num⟩, ?_⟩
  have hsel : (select_action ⟨0, 0, 400, 0⟩ 1 0 0 [0, 1]).1 = 0 := by
    show (if (0 : ℚ) > eps_threshold ⟨0, 0, 400, 0⟩ 1 then np_argmax [0, 1] else 0) = 0
    rw [if_neg]
    norm_num [eps_threshold]
  have hmax : np_argmax [0, 1] = 1 := by
    show argmax_go 1 0 0 [1] = 1
    rw [argmax_go, if_pos (by norm_num)]
    rfl
  rw [hsel, hmax]
  omega

/-- **C10.** The policy's step counter increases by exactly 1 on every
`select_action` call, in both branches, so after any sequence of `m` calls
it equals its initial value plus `m`. -/
theorem steps_done_increments (p : AnnealedEpsGreedyPolicy)
    (calls : List (ℚ × ℚ × ℕ × List ℚ)) :
    (run_policy p calls).steps_done = p.steps_done + calls.length
      ∧ ∀ e s r q, (select_action p e s r q).2.steps_done = p.steps_done + 1 := by
  refine ⟨?_, fun e s r q => rfl⟩
  induction calls generalizing p with
  | nil => rfl
  | cons c cs ih =>
    show (run_policy (select_action p c.1 c.2.1 c.2.2.1 c.2.2.2).2 cs).steps_done = _
    rw [ih]
    show p.steps_done + 1 + cs.length = p.steps_done + (cs.length + 1)
    omega

/-! ### Bellman targets of `update_model` -/

/-- The scattered next-state values have one entry per mask position. -/
theorem masked_scatter_length : ∀ (mask : List Bool) (vals : List ℚ),
    (masked_scatter mask vals).length = mask.length := by
  intro mask
  induction mask with
  | nil => intro vals; rfl
  | cons b m ih =>
    intro vals
    cases b with
    | true =>
      cases vals with
      | nil => simp [masked_scatter, ih]
      | cons v vs => simp [masked_scatter, ih]
    | false => simp [masked_scatter, ih]

/-- At a position whose transition is terminal (mask `false`), the scattered
next-state value is the `0` it was initialised with, whatever the target
network produced for the non-terminal rows. -/
theorem masked_scatter_at_none : ∀ (batch : List Transition) (vals : List ℚ) (i : ℕ)
    (hi : i < batch.length), (batch.get ⟨i, hi⟩).next_state = none →
    (masked_scatter (non_final_mask batch) vals).getD i 0 = 0 := by
  intro batch
  induction batch with
  | nil => intro vals i hi; exact absurd hi (by simp)
  | cons tr rest ih =>
    intro vals i hi hnone
    have hmask : non_final_mask (tr :: rest) =
        tr.next_state.isSome :: non_final_mask rest := rfl
    match i with
    | 0 =>
      have htr : tr.next_state = none := hnone
      rw [hmask, htr]
      cases vals with
      | nil => rfl
      | cons v vs => rfl
    | j + 1 =>
      have hj : j < rest.length := by simpa using hi
      have hrest : (rest.get ⟨j, hj⟩).next_state = none := hnone
      rw [hmask]
      cases htr : tr.next_state with
      | none =>
        show (masked_scatter (false :: non_final_mask rest) vals).getD (j + 1) 0 = 0
        rw [show masked_scatter (false :: non_final_mask rest) vals =
          0 :: masked_scatter (non_final_mask rest) vals from rfl, List.getD_cons_succ]
        exact ih vals j hj hrest
      | some s =>
        show (masked_scatter (true :: non_final_mask rest) vals).getD (j + 1) 0 = 0
        cases vals with
        | nil =>
          rw [show masked_scatter (true :: non_final_mask rest) [] =
            0 :: masked_scatter (non_final_mask rest) [] from rfl, List.getD_cons_succ]
          exact ih [] j hj hrest
        | cons v vs =>
          rw [show masked_scatter (true :: non_final_mask rest) (v :: vs) =
            v :: masked_scatter (non_final_mask rest) vs from rfl, List.getD_cons_succ]
          exact ih vs j hj hrest

/-- **C2 (amended).** On a sampled batch containing at least one
non-terminal transition, the target computation completes, yields one value
per sample, and on every terminal sample (`next_state` is the sentinel
`None`) the computed target equals that sample's reward exactly — the
bootstrap term is the `0` the masked assignment left untouched, whatever
the target approximator outputs.  (A batch whose transitions are all
terminal instead raises on the empty `torch.stack`; see the
counterexample.) -/
theorem compute_targets_spec (tnet : List ℚ → List ℚ) (batch : List Transition)
    (hnf : ∃ tr ∈ batch, tr.next_state.isSome) :
    ∃ ts, compute_targets tnet batch = .ok ts
      ∧ ts.length = batch.length
      ∧ ∀ i (hi : i < batch.length), (batch.get ⟨i, hi⟩).next_state = none →
          ts.getD i 0 = (batch.get ⟨i, hi⟩).reward := by
  obtain ⟨tr, htr, hsome⟩ := hnf
  obtain ⟨s, hs⟩ := Option.isSome_iff_exists.mp hsome
  have hne : non_final_next_states batch ≠ [] := by
    intro hcon
    have : s ∈ non_final_next_states batch :=
      List.mem_filterMap.mpr ⟨tr, htr, hs⟩
    rw [hcon] at this
    exact absurd this (List.not_mem_nil s)
  have hstack : torch_stack (non_final_next_states batch) =
      .ok (non_final_next_states batch) := by
    rw [torch_stack, if_neg (by rw [List.isEmpty_iff]; exact hne)]
  refine ⟨List.zipWith (fun tr v => tr.reward + GAMMA * v) batch
    (masked_scatter (non_final_mask batch)
      ((non_final_next_states batch).map (fun s => row_max (tnet s)))), ?_, ?_, ?_⟩
  · rw [compute_targets, hstack]
    rfl
  · rw [List.length_zipWith, masked_scatter_length]
    have : (non_final_mask batch).length = batch.length := by
      rw [non_final_mask, List.length_map]
    rw [this]
    omega
  · intro i hi hnone
    have hlen : i < (List.zipWith (fun tr v => tr.reward + GAMMA * v) batch
        (masked_scatter (non_final_mask batch)
          ((non_final_next_states batch).map (fun s => row_max (tnet s))))).length := by
      rw [List.length_zipWith, masked_scatter_length, non_final_mask, List.length_map]
      omega
    rw [List.getD_eq_getElem _ _ hlen, List.getElem_zipWith]
    have hslen : i < (masked_scatter (non_final_mask batch)
        ((non_final_next_states batch).map (fun s => row_max (tnet s)))).length := by
      rw [masked_scatter_length, non_final_mask, List.length_map]
      omega
    have hscatter : (masked_scatter (non_final_mask batch)
        ((non_final_next_states batch).map (fun s => row_max (tnet s))))[i] = 0 := by
      have h0 := masked_scatter_at_none batch
        ((non_final_next_states batch).map (fun s => row_max (tnet s))) i hi hnone
      rw [List.getD_eq_getElem _ _ hslen] at h0
      exact h0
    rw [hscatter]
    have hget : batch[i] = batch.get ⟨i, hi⟩ := rfl
    rw [hget, GAMMA]
    ring

/-- Witness for `compute_targets_spec`: a two-sample batch with one
terminal and one non-terminal transition; the terminal sample's target is
its reward `5`. -/
theorem compute_targets_spec_witness :
    (∃ tr ∈ ([⟨[], 0, none, 5⟩, ⟨[], 1, some [1], 7⟩] : List Transition),
        tr.next_state.isSome)
      ∧ ∃ ts, compute_targets (fun _ => [9])
            [⟨[], 0, none, 5⟩, ⟨[], 1, some [1], 7⟩] = .ok ts ∧ ts.getD 0 0 = 5 := by
  have h := compute_targets_spec (fun _ => [9])
    [⟨[], 0, none, 5⟩, ⟨[], 1, some [1], 7⟩]
    ⟨⟨[], 1, some [1], 7⟩, List.mem_cons_of_mem _ (List.mem_cons_self _ _), rfl⟩
  obtain ⟨ts, hok, hlen, hterm⟩ := h
  exact ⟨⟨⟨[], 1, some [1], 7⟩, List.mem_cons_of_mem _ (List.mem_cons_self _ _), rfl⟩,
    ts, hok, hterm 0 (by norm_num) rfl⟩

/-- **C2 is false on the code.** A full batch (`BATCH_SIZE` transitions)
whose `next_state`s are all the terminal sentinel makes `update_model`'s
`torch.stack([s for s in batch.next_state if s is not None])` raise on the
empty tensor list: the step does not complete, and no target values are
produced at all. -/
theorem compute_targets_all_terminal_errors :
    (∀ tr ∈ List.replicate BATCH_SIZE (Transition.mk [] 0 none 5),
        tr.next_state = none)
      ∧ compute_targets (fun _ => [0])
          (List.replicate BATCH_SIZE (Transition.mk [] 0 none 5)) =
            .error .emptyStack := by
  constructor
  · intro tr htr
    rw [List.eq_of_mem_replicate htr]
  · have h1 : non_final_next_states
        (List.replicate BATCH_SIZE (Transition.mk [] 0 none 5)) = [] := by
      rw [non_final_next_states, List.filterMap_replicate]
    rw [compute_targets, h1]
    rfl

/-! ### Sampling without replacement -/

/-- One Fisher–Yates extraction round: taking the element at slot `j` of
the active prefix and overwriting that slot with the last active element
turns the active prefix of length `a` into the shortened prefix plus the
extracted element, up to permutation. -/
theorem pool_extract_perm {α : Type} [DecidableEq α] [Inhabited α] (pool : List α)
    (j a : ℕ) (hj : j < a) (ha : a ≤ pool.length) :
    ((pool.set j (pool.getD (a - 1) default)).take (a - 1) ++
        [pool.getD j default]).Perm (pool.take a) := by
  obtain ⟨b, rfl⟩ : ∃ b, a = b + 1 := ⟨a - 1, by omega⟩
  simp only [Nat.add_sub_cancel] at *
  have hb : b < pool.length := by omega
  have hjlen : j < pool.length := by omega
  have hy : pool.getD b default = pool[b] := List.getD_eq_getElem _ _ hb
  have hx : pool.getD j default = pool[j] := List.getD_eq_getElem _ _ hjlen
  have htakea : pool.take (b + 1) = pool.take b ++ [pool[b]] := by
    rw [List.take_succ, List.getElem?_eq_getElem hb]
    rfl
  rw [List.set_take, hy, hx, htakea]
  rcases Nat.lt_or_ge j b with hlt | hge
  · have hjt : j < (pool.take b).length := by
      rw [List.length_take]; omega
    rw [List.perm_iff_count]
    intro c
    rw [List.count_append, List.count_append, List.count_singleton,
      List.count_singleton, List.count_set _ _ _ _ hjt]
    have hgetj : (pool.take b)[j] = pool[j] := List.getElem_take _
    rw [hgetj]
    have hmemj : pool[j] ∈ pool.take b := by
      rw [← hgetj]
      exact List.getElem_mem _
    have hcount : (if (pool[j] == c) = true then 1 else 0) ≤
        List.count c (pool.take b) := by
      by_cases hc : pool[j] = c
      · subst hc
        simpa using List.count_pos_iff.mpr hmemj
      · simp [hc]
    omega
  · have hjeq : j = b := by omega
    subst hjeq
    rw [List.set_eq_of_length_le (by rw [List.length_take]; omega)]

/-- The pool-based selection returns exactly `k` elements forming a
sub-permutation of the active prefix: `k` distinct slots, no replacement. -/
theorem sample_pool_spec {α : Type} [DecidableEq α] [Inhabited α] :
    ∀ (k : ℕ) (pool : List α) (active : ℕ) (js : List ℕ),
    k ≤ active → active ≤ pool.length →
    (sample_pool pool active js k).length = k
      ∧ (sample_pool pool active js k).Subperm (pool.take active) := by
  intro k
  induction k with
  | zero =>
    intro pool active js h1 h2
    exact ⟨rfl, List.nil_subperm⟩
  | succ k ih =>
    intro pool active js h1 h2
    have hactive : 0 < active := by omega
    have hjlt : js.headD 0 % active < active := Nat.mod_lt _ hactive
    have hstep : sample_pool pool active js (k + 1) =
        pool.getD (js.headD 0 % active) default ::
          sample_pool (pool.set (js.headD 0 % active)
            (pool.getD (active - 1) default)) (active - 1) js.tail k := rfl
    obtain ⟨ihlen, ihsub⟩ := ih
      (pool.set (js.headD 0 % active) (pool.getD (active - 1) default))
      (active - 1) js.tail (by omega) (by rw [List.length_set]; omega)
    have hperm := pool_extract_perm pool (js.headD 0 % active) active hjlt h2
    refine ⟨by rw [hstep, List.length_cons, ihlen], ?_⟩
    rw [hstep, List.subperm_ext_iff]
    intro c hc
    have hle : List.count c (pool.getD (js.headD 0 % active) default ::
        sample_pool (pool.set (js.headD 0 % active) (pool.getD (active - 1) default))
          (active - 1) js.tail k) ≤
        List.count c ((pool.set (js.headD 0 % active)
            (pool.getD (active - 1) default)).take (active - 1) ++
          [pool.getD (js.headD 0 % active) default]) := by
      rw [List.count_cons, List.count_append, List.count_singleton]
      have hihc := ihsub.count_le c
      omega
    have heq : List.count c ((pool.set (js.headD 0 % active)
          (pool.getD (active - 1) default)).take (active - 1) ++
        [pool.getD (js.headD 0 % active) default]) =
        List.count c (pool.take active) := List.perm_iff_count.mp hperm c
    exact le_trans hle (le_of_eq heq)

/-- **C6.** `random.sample` on the buffer contents: when `n` is at most the
current size it returns exactly `n` stored transitions drawn without
replacement — a sub-permutation of the stored list, hence pairwise-distinct
slots (`Nodup` whenever the stored transitions are distinct) — and when `n`
exceeds the current size it fails with the insufficient-data `ValueError`
instead of returning fewer. -/
theorem random_sample_spec {α : Type} [DecidableEq α] [Inhabited α]
    (population : List α) (k : ℕ) (js : List ℕ) :
    (k ≤ population.length →
        ∃ res, random_sample population k js = .ok res
          ∧ res.length = k
          ∧ res.Subperm population
          ∧ (population.Nodup → res.Nodup))
      ∧ (population.length < k →
          random_sample population k js = .error .insufficientData) := by
  constructor
  · intro hk
    obtain ⟨hlen, hsub⟩ := sample_pool_spec k population population.length js hk le_rfl
    rw [List.take_length] at hsub
    refine ⟨sample_pool population population.length js k, ?_, hlen, hsub, ?_⟩
    · rw [random_sample, if_neg (by omega)]
    · intro hnd
      obtain ⟨l, hlperm, hlsub⟩ := hsub
      exact hlperm.nodup (List.Nodup.sublist hlsub hnd)
  · intro hk
    rw [random_sample, if_pos hk]

/-- Witness for `random_sample_spec`: drawing 2 of 3 stored items succeeds
with 2 distinct items; drawing 5 of 3 raises. -/
theorem random_sample_spec_witness :
    ((2 ≤ ([10, 20, 30] : List ℕ).length) ∧
      ∃ res, random_sample ([10, 20, 30] : List ℕ) 2 [5, 0] = .ok res
        ∧ res.length = 2)
      ∧ (([10, 20, 30] : List ℕ).length < 5
          ∧ random_sample ([10, 20, 30] : List ℕ) 5 [] = .error .insufficientData) := by
  constructor
  · refine ⟨by decide, ?_⟩
    obtain ⟨res, hok, hlen, _, _⟩ :=
      (random_sample_spec ([10, 20, 30] : List ℕ) 2 [5, 0]).1 (by decide)
    exact ⟨res, hok, hlen⟩
  · exact ⟨by decide, (random_sample_spec ([10, 20, 30] : List ℕ) 5 []).2 (by decide)⟩

/-! ### The optimization-step guard and the target sync -/

/-- The target computation can only fail on the empty stack, never with the
insufficient-data error (that error belongs to `random.sample`). -/
theorem compute_targets_ne_insufficient (tnet : List ℚ → List ℚ)
    (batch : List Transition) :
    compute_targets tnet batch ≠ .error .insufficientData := by
  rw [compute_targets]
  by_cases h : (non_final_next_states batch).isEmpty
  · rw [torch_stack, if_pos h]
    intro hcon
    simp at hcon
  · rw [torch_stack, if_neg h]
    intro hcon
    simp at hcon

/-- **C9.** An optimization step happens only when the buffer holds at
least `BATCH_SIZE` transitions: below that the call is a no-op returning
the networks unchanged (and it never touches the buffer, which it only
reads); consequently the insufficient-data sampling error is unreachable —
`update_model` never returns it, because the guard's threshold equals the
requested sample size. -/
theorem update_model_guard {P : Type} (tn : P → List ℚ → List ℚ) (g : P → P)
    (memory : List Transition) (nets : Nets P) (js : List ℕ) :
    (memory.length < BATCH_SIZE → update_model tn g memory nets js = .ok nets)
      ∧ update_model tn g memory nets js ≠ .error .insufficientData := by
  constructor
  · intro h
    rw [update_model, if_pos h]
  · intro hcon
    by_cases h : memory.length < BATCH_SIZE
    · rw [update_model, if_pos h] at hcon
      simp at hcon
    · rw [update_model, if_neg h] at hcon
      obtain ⟨batch, hok, -, -, -⟩ :=
        (random_sample_spec memory BATCH_SIZE js).1 (by omega)
      rw [hok] at hcon
      cases ht : compute_targets (tn nets.target) batch with
      | ok ts =>
        rw [show (Except.ok batch >>= fun batch =>
            compute_targets (tn nets.target) batch >>= fun _targets =>
              pure (apply_gradient_step g nets) :
            Except TrainError (Nets P)) =
          (compute_targets (tn nets.target) batch >>= fun _targets =>
            pure (apply_gradient_step g nets)) from rfl, ht] at hcon
        simp at hcon
      | error e =>
        rw [show (Except.ok batch >>= fun batch =>
            compute_targets (tn nets.target) batch >>= fun _targets =>
              pure (apply_gradient_step g nets) :
            Except TrainError (Nets P)) =
          (compute_targets (tn nets.target) batch >>= fun _targets =>
            pure (apply_gradient_step g nets)) from rfl, ht] at hcon
        have he : e = TrainError.insufficientData := by
          simpa using hcon
        rw [he] at ht
        exact compute_targets_ne_insufficient (tn nets.target) batch ht

/-- Witness for `update_model_guard`: an empty buffer (below the batch
threshold) leaves the networks untouched and raises nothing. -/
theorem update_model_guard_witness :
    (([] : List Transition).length < BATCH_SIZE
        ∧ update_model (fun p _ => [(p : ℚ)]) (fun p => p + 1) [] (Nets.mk 0 0) [] =
            .ok (Nets.mk (0 : ℚ) 0))
      ∧ update_model (fun p _ => [(p : ℚ)]) (fun p => p + 1) [] (Nets.mk 0 0) [] ≠
          .error .insufficientData :=
  ⟨⟨by decide,
      (update_model_guard (fun p _ => [(p : ℚ)]) (fun p => p + 1) [] (Nets.mk 0 0) []).1
        (by decide)⟩,
    (update_model_guard (fun p _ => [(p : ℚ)]) (fun p => p + 1) [] (Nets.mk 0 0) []).2⟩

/-- **C8.** At the end of every episode `e` with `e % TARGET_UPDATE = 0`
(episode 0 included, since `0 % TARGET_UPDATE = 0`), the target network's
parameters are overwritten with a snapshot of the policy network's
parameters, immediately after which the two evaluate identically on every
probe state under any (deterministic) evaluation of the parameters; on
other episodes the sync leaves both networks untouched; and the
optimization step's gradient phase rewrites only the policy parameters,
leaving the target parameters unchanged — so the post-sync agreement
persists until the policy itself is further updated. -/
theorem target_sync_spec {P σ : Type} (e : ℕ) (nets : Nets P)
    (eval : P → σ → List ℚ) (he : e % TARGET_UPDATE = 0) :
    (target_sync e nets).target = nets.policy
      ∧ (∀ s, eval (target_sync e nets).target s = eval (target_sync e nets).policy s)
      ∧ 0 % TARGET_UPDATE = 0
      ∧ (∀ (e' : ℕ) (nets' : Nets P), e' % TARGET_UPDATE ≠ 0 → target_sync e' nets' = nets')
      ∧ (∀ g, (apply_gradient_step g (target_sync e nets)).target =
            (target_sync e nets).target
          ∧ (apply_gradient_step g (target_sync e nets)).policy =
              g (target_sync e nets).policy) := by
  have h : target_sync e nets = Nets.mk nets.policy nets.policy := by
    rw [target_sync, if_pos he]
  rw [h]
  exact ⟨rfl, fun s => rfl, Nat.zero_mod _,
    fun e' nets' he' => by rw [target_sync, if_neg he'],
    fun g => ⟨rfl, rfl⟩⟩

/-- Witness for `target_sync_spec` at episode 0 with numeric parameter
sets. -/
theorem target_sync_spec_witness :
    (0 % TARGET_UPDATE = 0)
      ∧ (target_sync 0 (Nets.mk (5 : ℚ) 7)).target = (Nets.mk (5 : ℚ) 7).policy :=
  ⟨by decide,
    (target_sync_spec 0 (Nets.mk (5 : ℚ) 7) (fun p (_ : ℕ) => [p]) (by decide)).1⟩

end DQN
